import Mathlib

/-!
Verification of `avg.c`: a stream filter computing a cumulative average (CMA)
or a windowed simple moving average (SMA).

Embedding conventions:
* C `double` values are modelled as `ℚ` (exact arithmetic; the spec's claims are
  arithmetic identities, and floating-point rounding is out of scope).
* C `long` counters are modelled as `Int`.
* Mutating C functions become state-transformer functions; a C function's
  `double` return value is recovered by applying the corresponding accessor
  (`cma` / `sma`) to the returned state, exactly as the C code computes it.
* The `main` read loops become folds over the list of samples; for the
  token-level behaviour of `fscanf` (needed for malformed input) a separate
  fuel-indexed loop over a token list is given.
-/

/-! ## Definitions: data model, operations, drivers -/

/-- Model of `struct cumulative_average_t` from avg.c. -/
structure cumulative_average_t where
  average : ℚ
  total : ℚ
  count : Int
deriving DecidableEq, Repr

/-- The all-zero state that `cma_reset` produces (`s->total = s->count = s->average = 0`). -/
def cma_zero : cumulative_average_t := { average := 0, total := 0, count := 0 }

/-- Update function `cumulative_average`: `s->total += x; s->count++; s->average = s->total / s->count;`
returns the updated state; the C return value is the new `average` field. -/
def cumulative_average (s : cumulative_average_t) (x : ℚ) : cumulative_average_t :=
  let total := s.total + x
  let count := s.count + 1
  { average := total / (count : ℚ), total := total, count := count }

/-- Accessor `cma`: returns `s->average`. -/
def cma (s : cumulative_average_t) : ℚ := s.average

/-- Reset `cma_reset`: zeroes every field. -/
def cma_reset (_ : cumulative_average_t) : cumulative_average_t := cma_zero

/-- Model of `struct simple_moving_average_t` from avg.c. -/
structure simple_moving_average_t where
  current_window : cumulative_average_t
  simple_average : cumulative_average_t
  window : Int
deriving DecidableEq, Repr

/-- Update function `simple_moving_average`: feed `x` into `current_window`; when its count reaches
`window`, fold its mean into `simple_average` and reset the window.  The C return
value is `cma(&s->simple_average)` of the updated state. -/
def simple_moving_average (s : simple_moving_average_t) (x : ℚ) : simple_moving_average_t :=
  let cw := cumulative_average s.current_window x
  if cw.count = s.window then
    { current_window := cma_reset cw
      simple_average := cumulative_average s.simple_average (cma cw)
      window := s.window }
  else
    { s with current_window := cw }

/-- Accessor `sma`: returns `cma(&s->simple_average)`. -/
def sma (s : simple_moving_average_t) : ℚ := cma s.simple_average

/-- Reset `sma_reset`: resets both inner averagers and stores the window size. -/
def sma_reset (_ : simple_moving_average_t) (window : Int) : simple_moving_average_t :=
  { current_window := cma_zero, simple_average := cma_zero, window := window }

/-- The SMA state as `main` sets it up: `sma_reset(&state, window_size)`. -/
def sma_init (window : Int) : simple_moving_average_t :=
  sma_reset { current_window := cma_zero, simple_average := cma_zero, window := 0 } window

/-- Feeding a list of samples one by one into a cumulative averager. -/
def caFeed (s : cumulative_average_t) (xs : List ℚ) : cumulative_average_t :=
  xs.foldl cumulative_average s

/-- Feeding a list of samples one by one into a simple moving averager. -/
def smaFeed (s : simple_moving_average_t) (xs : List ℚ) : simple_moving_average_t :=
  xs.foldl simple_moving_average s

/-- The cumulative-averager state determined by a list of samples:
total = sum, count = length, average = sum/length (0 when the list is empty,
matching `cma_zero`). -/
def caOf (l : List ℚ) : cumulative_average_t :=
  { average := l.sum / (l.length : ℚ), total := l.sum, count := (l.length : Int) }

/-- Arithmetic mean of a list (0 on the empty list, by `ℚ` division). -/
def mean (l : List ℚ) : ℚ := l.sum / (l.length : ℚ)

attribute [ext] cumulative_average_t
attribute [ext] simple_moving_average_t

/-- The two operations that mutate a `cumulative_average_t` in avg.c. -/
inductive ca_op where
  | update (x : ℚ)
  | reset
deriving DecidableEq, Repr

/-- Apply one operation. -/
def ca_apply (s : cumulative_average_t) : ca_op → cumulative_average_t
  | ca_op.update x => cumulative_average s x
  | ca_op.reset => cma_reset s

/-- Run a list of operations from a state (states reachable from `cma_zero` are
exactly `ca_run cma_zero ops`). -/
def ca_run (s : cumulative_average_t) (ops : List ca_op) : cumulative_average_t :=
  ops.foldl ca_apply s

/-- The data-model invariant of `cumulative_average_t`. -/
def ca_inv (s : cumulative_average_t) : Prop :=
  (0 < s.count → s.average = s.total / (s.count : ℚ)) ∧
  (s.count = 0 → s.average = 0) ∧ 0 ≤ s.count

/-- One iteration of the CMA read loop: update the state and, with
`--show-intermediates`, print the returned running average. -/
def cma_loop_step (showI : Bool) (p : cumulative_average_t × List ℚ) (x : ℚ) :
    cumulative_average_t × List ℚ :=
  let s := cumulative_average p.1 x
  (s, if showI then p.2 ++ [cma s] else p.2)

/-- The CMA branch of `main` on a fully-parsed sample list: run the read loop
and, without `--show-intermediates`, print the single final value. Returns the
list of printed values. -/
def cma_main (showI : Bool) (xs : List ℚ) : List ℚ :=
  let r := xs.foldl (cma_loop_step showI)
    (cma_reset { average := 0, total := 0, count := 0 }, [])
  if showI then r.2 else r.2 ++ [cma r.1]

/-- The running averages printed by the intermediate CMA loop, starting from state `s`. -/
def caRunning (s : cumulative_average_t) : List ℚ → List ℚ
  | [] => []
  | x :: t => cma (cumulative_average s x) :: caRunning (cumulative_average s x) t

/-- The complete `W`-sized chunks of a list, in order. -/
def chunksOf (W : ℕ) (l : List ℚ) : List (List ℚ) :=
  if h : W = 0 ∨ l.length < W then [] else l.take W :: chunksOf W (l.drop W)
termination_by l.length
decreasing_by
  push_neg at h
  simp only [List.length_drop]
  omega

/-- What remains of a list after removing its complete `W`-sized chunks
(the trailing partial window). -/
def residualChunk (W : ℕ) (l : List ℚ) : List ℚ :=
  if h : W = 0 ∨ l.length < W then l else residualChunk W (l.drop W)
termination_by l.length
decreasing_by
  push_neg at h
  simp only [List.length_drop]
  omega

/-- One iteration of the SMA read loop: `count++; simple_moving_average(&state, x);
if (count == window_size) { count = 0; if (show_intermediates) print sma(&state); }`.
The triple is (averager state, driver counter, printed lines). -/
def sma_loop_step (window : Int) (showI : Bool)
    (p : simple_moving_average_t × Int × List ℚ) (x : ℚ) :
    simple_moving_average_t × Int × List ℚ :=
  let s := simple_moving_average p.1 x
  let c := p.2.1 + 1
  if c = window then (s, 0, if showI then p.2.2 ++ [sma s] else p.2.2)
  else (s, c, p.2.2)

/-- The SMA branch of `main` on a fully-parsed sample list: run the read loop and,
without `--show-intermediates`, print the single final value. Returns the printed lines. -/
def sma_main (window : Int) (showI : Bool) (xs : List ℚ) : List ℚ :=
  let r := xs.foldl (sma_loop_step window showI) (sma_init window, 0, [])
  if showI then r.2.2 else r.2.2 ++ [sma r.1]

/-- The values printed at window boundaries while feeding `xs` from state `s`:
one `sma` value each time the inner update folds a completed window. -/
def smaEmits (s : simple_moving_average_t) : List ℚ → List ℚ
  | [] => []
  | x :: t =>
      if (cumulative_average s.current_window x).count = s.window then
        sma (simple_moving_average s x) :: smaEmits (simple_moving_average s x) t
      else
        smaEmits (simple_moving_average s x) t

/-- A whitespace-delimited input token: either a parseable number or a malformed
(non-numeric) token. -/
inductive token where
  | num (q : ℚ)
  | bad
deriving DecidableEq, Repr

/-- Token-level model of both CMA read loops, `while (fscanf(in, "%lf", &x) != EOF)`
with either `printf("%lf\x5cn", cumulative_average(&state, x))` in the body
(show-intermediates) or the bare update call (final-only).  `fscanf` returns `EOF`
only on an exhausted stream; on a malformed token it returns 0 (matching failure),
leaves the token unconsumed and `x` unchanged, and `0 != EOF` so the body still
runs with the previous `x`.  Indexed by fuel; `out` accumulates the lines printed
inside the loop so far.  The result's first component is `none` when the loop has
not terminated within `fuel` iterations and `some s` (the averager state at exit)
otherwise; the second component is the printed output after those iterations. -/
def cma_fscanf_loop (fuel : ℕ) (showI : Bool) (s : cumulative_average_t) (x : ℚ)
    (out : List ℚ) (toks : List token) : Option cumulative_average_t × List ℚ :=
  match fuel with
  | 0 => (none, out)
  | fuel + 1 =>
      match toks with
      | [] => (some s, out)
      | token.num q :: rest =>
          cma_fscanf_loop fuel showI (cumulative_average s q) q
            (if showI then out ++ [cma (cumulative_average s q)] else out) rest
      | token.bad :: rest =>
          cma_fscanf_loop fuel showI (cumulative_average s x) x
            (if showI then out ++ [cma (cumulative_average s x)] else out)
            (token.bad :: rest)

/-- The read loop never terminates on this token stream, whatever the fuel, the
averager state, the contents of the `x` variable or the output printed so far. -/
def cma_fscanf_diverges (showI : Bool) (toks : List token) : Prop :=
  ∀ (fuel : ℕ) (s : cumulative_average_t) (x : ℚ) (out : List ℚ),
    (cma_fscanf_loop fuel showI s x out toks).1 = none

/-! ## Theorems -/

theorem caFeed_nil (s : cumulative_average_t) : caFeed s [] = s := rfl

theorem caFeed_cons (s : cumulative_average_t) (x : ℚ) (l : List ℚ) :
    caFeed s (x :: l) = caFeed (cumulative_average s x) l := rfl

theorem caFeed_append (s : cumulative_average_t) (l₁ l₂ : List ℚ) :
    caFeed s (l₁ ++ l₂) = caFeed (caFeed s l₁) l₂ :=
  List.foldl_append _ _ _ _

theorem caFeed_total (s : cumulative_average_t) (l : List ℚ) :
    (caFeed s l).total = s.total + l.sum := by
  induction l generalizing s with
  | nil => simp [caFeed]
  | cons x t ih =>
      rw [caFeed_cons, ih]
      simp [cumulative_average]
      ring

theorem caFeed_count (s : cumulative_average_t) (l : List ℚ) :
    (caFeed s l).count = s.count + (l.length : Int) := by
  induction l generalizing s with
  | nil => simp [caFeed]
  | cons x t ih =>
      rw [caFeed_cons, ih]
      simp [cumulative_average]
      ring

theorem caFeed_average (s : cumulative_average_t) (l : List ℚ) (h : l ≠ []) :
    (caFeed s l).average = (s.total + l.sum) / ((s.count : ℚ) + (l.length : ℚ)) := by
  induction l generalizing s with
  | nil => exact absurd rfl h
  | cons x t ih =>
      rw [caFeed_cons]
      rcases t with _ | ⟨y, t'⟩
      · simp [caFeed, cumulative_average]
      · rw [ih _ (by simp)]
        simp [cumulative_average]
        ring_nf

theorem caFeed_zero (l : List ℚ) : caFeed cma_zero l = caOf l := by
  rcases l with _ | ⟨x, t⟩
  · ext <;> simp [caFeed, caOf, cma_zero]
  · ext
    · rw [caFeed_average _ _ (by simp)]
      simp [cma_zero, caOf]
    · rw [caFeed_total]
      simp [cma_zero, caOf]
    · rw [caFeed_count]
      simp [cma_zero, caOf]

theorem ca_inv_zero : ca_inv cma_zero := by
  refine ⟨?_, ?_, ?_⟩ <;> simp [cma_zero]

theorem ca_inv_step (s : cumulative_average_t) (op : ca_op) (h : ca_inv s) :
    ca_inv (ca_apply s op) := by
  rcases op with x | _
  · obtain ⟨-, -, hc⟩ := h
    refine ⟨fun _ => rfl, fun hzero => ?_, by simp [ca_apply, cumulative_average]; omega⟩
    exfalso
    simp [ca_apply, cumulative_average] at hzero
    omega
  · exact ca_inv_zero

theorem ca_inv_run (s : cumulative_average_t) (ops : List ca_op) (h : ca_inv s) :
    ca_inv (ca_run s ops) := by
  induction ops generalizing s with
  | nil => exact h
  | cons op t ih => exact ih _ (ca_inv_step s op h)

theorem cma_loop_state (showI : Bool) (s : cumulative_average_t) (out : List ℚ)
    (xs : List ℚ) : (xs.foldl (cma_loop_step showI) (s, out)).1 = caFeed s xs := by
  induction xs generalizing s out with
  | nil => rfl
  | cons x t ih => simpa [cma_loop_step, caFeed_cons] using ih (cumulative_average s x) _

theorem cma_loop_out (s : cumulative_average_t) (out : List ℚ) (xs : List ℚ) :
    (xs.foldl (cma_loop_step true) (s, out)).2 = out ++ caRunning s xs := by
  induction xs generalizing s out with
  | nil => simp [caRunning]
  | cons x t ih =>
      simp only [List.foldl_cons, cma_loop_step, caRunning]
      rw [ih]
      simp

theorem caRunning_length (s : cumulative_average_t) (xs : List ℚ) :
    (caRunning s xs).length = xs.length := by
  induction xs generalizing s with
  | nil => rfl
  | cons x t ih => simp [caRunning, ih]

theorem caRunning_getD (s : cumulative_average_t) (xs : List ℚ) (k : ℕ)
    (hk : k < xs.length) :
    (caRunning s xs).getD k 0 = cma (caFeed s (xs.take (k + 1))) := by
  induction xs generalizing s k with
  | nil => simp at hk
  | cons x t ih =>
      rcases k with _ | k
      · simp [caRunning, caFeed]
      · simp only [caRunning, List.getD_cons_succ, List.take_succ_cons, caFeed_cons]
        exact ih (cumulative_average s x) k (by simpa using hk)

theorem cma_loop_out_false (s : cumulative_average_t) (out : List ℚ) (xs : List ℚ) :
    (xs.foldl (cma_loop_step false) (s, out)).2 = out := by
  induction xs generalizing s out with
  | nil => rfl
  | cons x t ih => simpa [cma_loop_step] using ih (cumulative_average s x) out

/-- Claim C6: every `cumulative_average_t` state reachable from the reset state by
`update`/`reset` operations satisfies `average = total / count` when `count > 0` and
`average = 0` when `count = 0`; `cma` (the `value()` accessor) returns that `average`
field and, being a plain function of the state, mutates nothing. -/
theorem claim_C6_cma_invariant (ops : List ca_op) :
    (0 < (ca_run cma_zero ops).count →
      (ca_run cma_zero ops).average =
        (ca_run cma_zero ops).total / ((ca_run cma_zero ops).count : ℚ)) ∧
    ((ca_run cma_zero ops).count = 0 → (ca_run cma_zero ops).average = 0) ∧
    cma (ca_run cma_zero ops) = (ca_run cma_zero ops).average := by
  obtain ⟨h1, h2, -⟩ := ca_inv_run cma_zero ops ca_inv_zero
  exact ⟨h1, h2, rfl⟩

/-- Witness for C6 at the concrete operation list `[update 2, update 4, reset, update 5]`. -/
theorem claim_C6_cma_invariant_witness :
    (0 < (ca_run cma_zero [ca_op.update 2, ca_op.update 4, ca_op.reset, ca_op.update 5]).count ∧
      (ca_run cma_zero [ca_op.update 2, ca_op.update 4, ca_op.reset, ca_op.update 5]).average =
        (ca_run cma_zero [ca_op.update 2, ca_op.update 4, ca_op.reset, ca_op.update 5]).total /
          ((ca_run cma_zero [ca_op.update 2, ca_op.update 4, ca_op.reset, ca_op.update 5]).count : ℚ)) ∧
    cma (ca_run cma_zero [ca_op.update 2, ca_op.update 4, ca_op.reset, ca_op.update 5]) =
      (ca_run cma_zero [ca_op.update 2, ca_op.update 4, ca_op.reset, ca_op.update 5]).average :=
  ⟨⟨by decide,
    (claim_C6_cma_invariant [ca_op.update 2, ca_op.update 4, ca_op.reset, ca_op.update 5]).1
      (by decide)⟩,
    (claim_C6_cma_invariant [ca_op.update 2, ca_op.update 4, ca_op.reset, ca_op.update 5]).2.2⟩

/-- Claim C7: on empty input, CMA final-only mode prints exactly one line holding the
zero-state value 0. -/
theorem claim_C7_empty_input : cma_main false [] = [0] ∧ (cma_main false []).length = 1 := by
  constructor <;> rfl

/-- Claim C8: after `cma_reset`, `cma` (value) returns 0, and the next update behaves
exactly as the first update on a fresh (all-zero) averager: same resulting state, with
`average = x`, `count = 1`, `total = x`. -/
theorem claim_C8_reset_fresh (s : cumulative_average_t) (x : ℚ) :
    cma (cma_reset s) = 0 ∧
    cumulative_average (cma_reset s) x = cumulative_average cma_zero x ∧
    (cumulative_average (cma_reset s) x).average = x ∧
    (cumulative_average (cma_reset s) x).count = 1 ∧
    (cumulative_average (cma_reset s) x).total = x := by
  refine ⟨rfl, rfl, ?_, rfl, by simp [cma_reset, cma_zero, cumulative_average]⟩
  simp [cma_reset, cma_zero, cumulative_average]

/-- Witness for C8 at the state `⟨7, 21, 3⟩` and sample `x = 5`. -/
theorem claim_C8_reset_fresh_witness :
    cma (cma_reset { average := 7, total := 21, count := 3 }) = 0 ∧
    cumulative_average (cma_reset { average := 7, total := 21, count := 3 }) 5 =
      cumulative_average cma_zero 5 ∧
    (cumulative_average (cma_reset { average := 7, total := 21, count := 3 }) 5).average = 5 ∧
    (cumulative_average (cma_reset { average := 7, total := 21, count := 3 }) 5).count = 1 ∧
    (cumulative_average (cma_reset { average := 7, total := 21, count := 3 }) 5).total = 5 :=
  claim_C8_reset_fresh { average := 7, total := 21, count := 3 } 5

/-- Claim C2: for nonempty input, the CMA final-only output is the single line
`(Σ xᵢ)/n`, and with intermediates shown the driver prints one line per sample,
the k-th (0-indexed) being `(Σ_{i≤k} xᵢ)/(k+1)`. -/
theorem claim_C2_cumulative_average (xs : List ℚ) (h : xs ≠ []) :
    cma_main false xs = [xs.sum / (xs.length : ℚ)] ∧
    (cma_main true xs).length = xs.length ∧
    ∀ k, k < xs.length →
      (cma_main true xs).getD k 0 = (xs.take (k + 1)).sum / ((k + 1 : ℕ) : ℚ) := by
  have hmain_t : cma_main true xs = caRunning cma_zero xs := by
    simp [cma_main, cma_loop_out, cma_reset]
  refine ⟨?_, ?_, ?_⟩
  · simp only [cma_main, cma_loop_out_false, cma_loop_state, cma_reset]
    rw [caFeed_zero]
    simp [cma, caOf]
  · rw [hmain_t, caRunning_length]
  · intro k hk
    rw [hmain_t, caRunning_getD cma_zero xs k hk, caFeed_zero, cma, caOf]
    have htk : (xs.take (k + 1)).length = k + 1 := by
      simp [List.length_take]
      omega
    rw [htk]

/-- Witness for C2 at `xs = [1, 2, 6]` (final output `[3]`; second intermediate `3/2`). -/
theorem claim_C2_cumulative_average_witness :
    ([1, 2, 6] : List ℚ) ≠ [] ∧
    cma_main false [1, 2, 6] = [([1, 2, 6] : List ℚ).sum / (([1, 2, 6] : List ℚ).length : ℚ)] ∧
    (1 < ([1, 2, 6] : List ℚ).length ∧
      (cma_main true [1, 2, 6]).getD 1 0 =
        (([1, 2, 6] : List ℚ).take 2).sum / ((2 : ℕ) : ℚ)) := by
  refine ⟨by simp, (claim_C2_cumulative_average [1, 2, 6] (by simp)).1,
    by decide, (claim_C2_cumulative_average [1, 2, 6] (by simp)).2.2 1 (by decide)⟩

theorem smaFeed_nil (s : simple_moving_average_t) : smaFeed s [] = s := rfl

theorem smaFeed_cons (s : simple_moving_average_t) (x : ℚ) (l : List ℚ) :
    smaFeed s (x :: l) = smaFeed (simple_moving_average s x) l := rfl

theorem smaFeed_append (s : simple_moving_average_t) (l₁ l₂ : List ℚ) :
    smaFeed s (l₁ ++ l₂) = smaFeed (smaFeed s l₁) l₂ :=
  List.foldl_append _ _ _ _

theorem sma_update_no_trigger (s : simple_moving_average_t) (x : ℚ)
    (h : s.current_window.count + 1 ≠ s.window) :
    simple_moving_average s x = { s with current_window := cumulative_average s.current_window x } := by
  simp only [simple_moving_average]
  rw [if_neg]
  simpa [cumulative_average] using h

theorem sma_update_trigger (s : simple_moving_average_t) (x : ℚ)
    (h : s.current_window.count + 1 = s.window) :
    simple_moving_average s x =
      { current_window := cma_zero
        simple_average := cumulative_average s.simple_average
          ((s.current_window.total + x) / ((s.window : Int) : ℚ))
        window := s.window } := by
  simp only [simple_moving_average]
  rw [if_pos (by simpa [cumulative_average] using h)]
  simp only [cma_reset, cma, cumulative_average]
  rw [h]

/-- No window boundary is crossed while the samples fed cannot fill the window. -/
theorem smaFeed_no_trigger (s : simple_moving_average_t) (l : List ℚ)
    (h : s.current_window.count + (l.length : Int) < s.window) :
    smaFeed s l = { s with current_window := caFeed s.current_window l } := by
  induction l generalizing s with
  | nil => rfl
  | cons x t ih =>
      rw [smaFeed_cons, sma_update_no_trigger s x (by simp at h; omega)]
      rw [ih _ (by simp at h ⊢; simp [cumulative_average]; omega)]
      simp [caFeed_cons]

/-- Feeding exactly enough samples to fill the current window folds their mean
(relative to the samples already in the window) into `simple_average` and resets
the window. -/
theorem smaFeed_fill (s : simple_moving_average_t) (l : List ℚ) (hne : l ≠ [])
    (h : s.current_window.count + (l.length : Int) = s.window) :
    smaFeed s l =
      { current_window := cma_zero
        simple_average := cumulative_average s.simple_average
          ((s.current_window.total + l.sum) / ((s.window : Int) : ℚ))
        window := s.window } := by
  induction l generalizing s with
  | nil => exact absurd rfl hne
  | cons x t ih =>
      rcases t with _ | ⟨y, t'⟩
      · rw [smaFeed_cons, smaFeed_nil, sma_update_trigger s x (by simpa using h)]
        simp
      · rw [smaFeed_cons, sma_update_no_trigger s x (by simp at h; omega)]
        rw [ih _ (by simp) (by simp at h ⊢; simp [cumulative_average]; omega)]
        simp [cumulative_average]
        ring_nf
        exact ⟨trivial, trivial⟩

theorem chunksOf_stop (W : ℕ) (l : List ℚ) (h : W = 0 ∨ l.length < W) :
    chunksOf W l = [] := by
  rw [chunksOf]
  exact dif_pos h

theorem chunksOf_step (W : ℕ) (l : List ℚ) (hW : W ≠ 0) (h : W ≤ l.length) :
    chunksOf W l = l.take W :: chunksOf W (l.drop W) := by
  rw [chunksOf]
  rw [dif_neg]
  push_neg
  exact ⟨hW, by omega⟩

theorem residual_stop (W : ℕ) (l : List ℚ) (h : W = 0 ∨ l.length < W) :
    residualChunk W l = l := by
  rw [residualChunk]
  exact dif_pos h

theorem residual_step (W : ℕ) (l : List ℚ) (hW : W ≠ 0) (h : W ≤ l.length) :
    residualChunk W l = residualChunk W (l.drop W) := by
  rw [residualChunk]
  rw [dif_neg]
  push_neg
  exact ⟨hW, by omega⟩

theorem residual_length_aux (n : ℕ) : ∀ (W : ℕ), 0 < W → ∀ l : List ℚ,
    l.length ≤ n → (residualChunk W l).length < W := by
  induction n with
  | zero =>
      intro W hW l hl
      rw [residual_stop W l (Or.inr (by omega))]
      omega
  | succ n ih =>
      intro W hW l hl
      by_cases hlen : l.length < W
      · rw [residual_stop W l (Or.inr hlen)]
        omega
      · rw [residual_step W l (by omega) (by omega)]
        exact ih W hW _ (by simp [List.length_drop]; omega)

theorem residual_length_lt (W : ℕ) (hW : 0 < W) (l : List ℚ) :
    (residualChunk W l).length < W :=
  residual_length_aux l.length W hW l le_rfl

theorem caOf_nil : caOf [] = cma_zero := by
  ext <;> simp [caOf, cma_zero]

/-- Main structural invariant of the SMA fold: starting from an empty current
window, any across-windows state `a` and window size `W > 0`, feeding `xs`
leaves the current window holding exactly the trailing partial chunk and the
across-windows averager having absorbed exactly the means of the complete chunks. -/
theorem smaFeed_inv_aux (n : ℕ) : ∀ (W : ℕ), 0 < W → ∀ (xs : List ℚ), xs.length ≤ n →
    ∀ (a : cumulative_average_t),
    smaFeed { current_window := cma_zero, simple_average := a, window := (W : Int) } xs =
      { current_window := caOf (residualChunk W xs)
        simple_average := caFeed a ((chunksOf W xs).map mean)
        window := (W : Int) } := by
  induction n with
  | zero =>
      intro W hW xs hxs a
      have hnil : xs = [] := List.length_eq_zero.mp (by omega)
      subst hnil
      rw [smaFeed_nil, residual_stop W [] (Or.inr (by simpa using hW)),
        chunksOf_stop W [] (Or.inr (by simpa using hW)), caOf_nil]
      rfl
  | succ n ih =>
      intro W hW xs hxs a
      by_cases hlen : xs.length < W
      · rw [residual_stop W xs (Or.inr hlen), chunksOf_stop W xs (Or.inr hlen)]
        rw [smaFeed_no_trigger _ _ (by simp [cma_zero]; exact_mod_cast hlen)]
        rw [caFeed_zero]
        rfl
      · push_neg at hlen
        have htW : (xs.take W).length = W := by simp [List.length_take]; omega
        have hne : xs.take W ≠ [] := by
          intro hcon
          rw [hcon] at htW
          simp at htW
          omega
        have hfill := smaFeed_fill
          { current_window := cma_zero, simple_average := a, window := (W : Int) }
          (xs.take W) hne (by simp [cma_zero, htW])
        conv_lhs => rw [show xs = xs.take W ++ xs.drop W from (List.take_append_drop W xs).symm]
        rw [smaFeed_append, hfill]
        dsimp only
        rw [ih W hW (xs.drop W) (by simp [List.length_drop]; omega)]
        rw [residual_step W xs (by omega) hlen, chunksOf_step W xs (by omega) hlen]
        simp only [List.map_cons, caFeed_cons]
        congr 2
        simp only [cma_zero]
        congr 1
        rw [mean, htW]
        push_cast
        simp

theorem smaFeed_inv (W : ℕ) (hW : 0 < W) (xs : List ℚ) (a : cumulative_average_t) :
    smaFeed { current_window := cma_zero, simple_average := a, window := (W : Int) } xs =
      { current_window := caOf (residualChunk W xs)
        simple_average := caFeed a ((chunksOf W xs).map mean)
        window := (W : Int) } :=
  smaFeed_inv_aux xs.length W hW xs le_rfl a

/-- Driver/averager synchronisation: when the loop's window parameter equals the
averager's `window` field and the driver counter starts equal to the current
window's count, they stay equal forever, and the printed intermediate lines are
exactly the window-boundary `sma` values. -/
theorem sma_loop_sync (showI : Bool) (xs : List ℚ) :
    ∀ (s : simple_moving_average_t) (out : List ℚ),
    xs.foldl (sma_loop_step s.window showI) (s, s.current_window.count, out) =
      (smaFeed s xs, (smaFeed s xs).current_window.count,
        out ++ if showI then smaEmits s xs else []) := by
  induction xs with
  | nil => intro s out; simp [smaFeed, smaEmits]
  | cons x t ih =>
      intro s out
      by_cases hc : (cumulative_average s.current_window x).count = s.window
      · have hcount : s.current_window.count + 1 = s.window := by
          simpa [cumulative_average] using hc
        have hs' := sma_update_trigger s x hcount
        have hwin : (simple_moving_average s x).window = s.window := by rw [hs']
        have hcw : (simple_moving_average s x).current_window.count = 0 := by
          rw [hs']
          rfl
        have step_eq : sma_loop_step s.window showI (s, s.current_window.count, out) x =
            (simple_moving_average s x, 0,
              if showI then out ++ [sma (simple_moving_average s x)] else out) := by
          simp only [sma_loop_step, if_pos hcount]
        rw [List.foldl_cons, step_eq]
        have := ih (simple_moving_average s x)
          (if showI then out ++ [sma (simple_moving_average s x)] else out)
        rw [hwin, hcw] at this
        rw [this, smaFeed_cons]
        simp only [smaEmits, if_pos hc]
        cases showI <;> simp
      · have hcount : s.current_window.count + 1 ≠ s.window := by
          simpa [cumulative_average] using hc
        have hs' := sma_update_no_trigger s x hcount
        have hwin : (simple_moving_average s x).window = s.window := by rw [hs']
        have hcw : (simple_moving_average s x).current_window.count =
            s.current_window.count + 1 := by
          rw [hs']
          simp [cumulative_average]
        have step_eq : sma_loop_step s.window showI (s, s.current_window.count, out) x =
            (simple_moving_average s x, s.current_window.count + 1, out) := by
          simp only [sma_loop_step, if_neg hcount]
        rw [List.foldl_cons, step_eq]
        have := ih (simple_moving_average s x) out
        rw [hwin, hcw] at this
        rw [this, smaFeed_cons]
        simp only [smaEmits, if_neg hc]

theorem smaEmits_cons (s : simple_moving_average_t) (x : ℚ) (t : List ℚ) :
    smaEmits s (x :: t) =
      if (cumulative_average s.current_window x).count = s.window then
        sma (simple_moving_average s x) :: smaEmits (simple_moving_average s x) t
      else smaEmits (simple_moving_average s x) t := rfl

theorem smaEmits_no_trigger (s : simple_moving_average_t) (l : List ℚ)
    (h : s.current_window.count + (l.length : Int) < s.window) :
    smaEmits s l = [] := by
  induction l generalizing s with
  | nil => rfl
  | cons x t ih =>
      have hcount : s.current_window.count + 1 ≠ s.window := by simp at h; omega
      rw [smaEmits_cons, if_neg (by simpa [cumulative_average] using hcount)]
      rw [ih]
      rw [sma_update_no_trigger s x hcount]
      simp at h ⊢
      simp [cumulative_average]
      omega

theorem smaEmits_fill (s : simple_moving_average_t) (l : List ℚ) (hne : l ≠ [])
    (h : s.current_window.count + (l.length : Int) = s.window) :
    smaEmits s l = [sma (smaFeed s l)] := by
  induction l generalizing s with
  | nil => exact absurd rfl hne
  | cons x t ih =>
      rcases t with _ | ⟨y, t'⟩
      · have hcount : s.current_window.count + 1 = s.window := by simpa using h
        rw [smaEmits_cons, if_pos (by simpa [cumulative_average] using hcount)]
        rfl
      · have hcount : s.current_window.count + 1 ≠ s.window := by simp at h; omega
        rw [smaEmits_cons, if_neg (by simpa [cumulative_average] using hcount)]
        rw [ih _ (by simp)
            (by rw [sma_update_no_trigger s x hcount]; simp at h ⊢; simp [cumulative_average]; omega)]
        rfl

theorem smaEmits_append (s : simple_moving_average_t) (l₁ l₂ : List ℚ) :
    smaEmits s (l₁ ++ l₂) = smaEmits s l₁ ++ smaEmits (smaFeed s l₁) l₂ := by
  induction l₁ generalizing s with
  | nil => simp [smaEmits, smaFeed]
  | cons x t ih =>
      rw [List.cons_append, smaEmits_cons, smaEmits_cons, smaFeed_cons]
      by_cases hc : (cumulative_average s.current_window x).count = s.window
      · rw [if_pos hc, if_pos hc, ih]
        rfl
      · rw [if_neg hc, if_neg hc, ih]

theorem smaEmits_length_aux (n : ℕ) : ∀ (W : ℕ), 0 < W → ∀ (xs : List ℚ),
    xs.length ≤ n → ∀ (a : cumulative_average_t),
    (smaEmits { current_window := cma_zero, simple_average := a, window := (W : Int) } xs).length =
      xs.length / W := by
  induction n with
  | zero =>
      intro W hW xs hxs a
      have hnil : xs = [] := List.length_eq_zero.mp (by omega)
      subst hnil
      simp [smaEmits]
  | succ n ih =>
      intro W hW xs hxs a
      by_cases hlen : xs.length < W
      · rw [smaEmits_no_trigger _ _ (by simp [cma_zero]; exact_mod_cast hlen)]
        simp [Nat.div_eq_of_lt hlen]
      · push_neg at hlen
        have htW : (xs.take W).length = W := by simp [List.length_take]; omega
        have hne : xs.take W ≠ [] := by
          intro hcon
          rw [hcon] at htW
          simp at htW
          omega
        have hfill := smaFeed_fill
          { current_window := cma_zero, simple_average := a, window := (W : Int) }
          (xs.take W) hne (by simp [cma_zero, htW])
        conv_lhs => rw [show xs = xs.take W ++ xs.drop W from (List.take_append_drop W xs).symm]
        rw [smaEmits_append,
          smaEmits_fill _ _ hne (by simp [cma_zero, htW]), hfill]
        dsimp only
        rw [List.length_append]
        rw [ih W hW (xs.drop W) (by simp [List.length_drop]; omega)]
        rw [Nat.div_eq_sub_div hW hlen]
        simp [List.length_drop]
        omega

theorem sma_init_eq (w : Int) :
    sma_init w = { current_window := cma_zero, simple_average := cma_zero, window := w } := rfl

theorem chunksOf_flatten (W : ℕ) (hW : 0 < W) (blocks : List (List ℚ)) (tl : List ℚ)
    (hb : ∀ b ∈ blocks, b.length = W) (htl : tl.length < W) :
    chunksOf W (blocks.flatten ++ tl) = blocks ∧
    residualChunk W (blocks.flatten ++ tl) = tl := by
  induction blocks with
  | nil =>
      simp only [List.flatten_nil, List.nil_append]
      exact ⟨chunksOf_stop W tl (Or.inr htl), residual_stop W tl (Or.inr htl)⟩
  | cons b bs ih =>
      have hbW : b.length = W := hb b (by simp)
      have hflat : (b :: bs).flatten ++ tl = b ++ (bs.flatten ++ tl) := by simp
      have hlen : W ≤ (b ++ (bs.flatten ++ tl)).length := by
        simp [List.length_append, hbW]
      have htake : (b ++ (bs.flatten ++ tl)).take W = b := by
        rw [show W = b.length from hbW.symm]
        exact List.take_left b _
      have hdrop : (b ++ (bs.flatten ++ tl)).drop W = bs.flatten ++ tl := by
        rw [show W = b.length from hbW.symm]
        exact List.drop_left b _
      obtain ⟨ih1, ih2⟩ := ih (fun c hc => hb c (by simp [hc]))
      rw [hflat]
      constructor
      · rw [chunksOf_step W _ (by omega) hlen, htake, hdrop, ih1]
      · rw [residual_step W _ (by omega) hlen, hdrop, ih2]

/-- Claim C4: for any `windowSize > 0` and any update sequence, the current
window's count stays in `[0, windowSize)` after every update, and the
across-windows averager's state is exactly the cumulative-average state of the
completed window means (so it never sees a raw sample). -/
theorem claim_C4_sma_window_invariant (W : ℕ) (hW : 0 < W) (xs : List ℚ) :
    0 ≤ (smaFeed (sma_init (W : Int)) xs).current_window.count ∧
    (smaFeed (sma_init (W : Int)) xs).current_window.count < (W : Int) ∧
    (smaFeed (sma_init (W : Int)) xs).simple_average = caOf ((chunksOf W xs).map mean) := by
  rw [sma_init_eq, smaFeed_inv W hW xs cma_zero, caFeed_zero]
  refine ⟨by simp [caOf], ?_, rfl⟩
  simp only [caOf]
  exact_mod_cast residual_length_lt W hW xs

/-- Witness for C4 at `W = 3`, samples `[1, 2, 3, 4]`. -/
theorem claim_C4_sma_window_invariant_witness :
    0 ≤ (smaFeed (sma_init ((3 : ℕ) : Int)) [1, 2, 3, 4]).current_window.count ∧
    (smaFeed (sma_init ((3 : ℕ) : Int)) [1, 2, 3, 4]).current_window.count < ((3 : ℕ) : Int) ∧
    (smaFeed (sma_init ((3 : ℕ) : Int)) [1, 2, 3, 4]).simple_average =
      caOf ((chunksOf 3 [1, 2, 3, 4]).map mean) :=
  claim_C4_sma_window_invariant 3 (by decide) [1, 2, 3, 4]

/-- Claim C1: with window size `W > 0`, after feeding `m ≥ 1` complete windows
(each of `W` raw samples) followed by any trailing partial window (fewer than `W`
samples), `sma` (the `value()` accessor) equals the arithmetic mean of the `m`
per-window means; the trailing samples do not contribute. -/
theorem claim_C1_sma_value (W : ℕ) (hW : 0 < W) (blocks : List (List ℚ))
    (hb : ∀ b ∈ blocks, b.length = W) (hm : blocks ≠ []) (tl : List ℚ) (htl : tl.length < W) :
    sma (smaFeed (sma_init (W : Int)) (blocks.flatten ++ tl)) =
      (blocks.map mean).sum / (blocks.length : ℚ) := by
  rw [sma_init_eq, smaFeed_inv W hW _ cma_zero]
  obtain ⟨hc, -⟩ := chunksOf_flatten W hW blocks tl hb htl
  rw [hc, caFeed_zero]
  simp [sma, cma, caOf]

/-- Witness for C1 at the spec's two examples: `W = 3` with one complete window
`[1,2,3]` and trailing `[10,20]` gives SMA 2; `W = 3` with windows `[1,2,3]`,
`[4,5,6]` and no trailing samples gives SMA 7/2. -/
theorem claim_C1_sma_value_witness :
    ((0 : ℕ) < 3 ∧ ([10, 20] : List ℚ).length < 3) ∧
    sma (smaFeed (sma_init ((3 : ℕ) : Int)) ([[(1 : ℚ), 2, 3]].flatten ++ [10, 20])) = 2 ∧
    sma (smaFeed (sma_init ((3 : ℕ) : Int)) ([[(1 : ℚ), 2, 3], [4, 5, 6]].flatten ++ [])) = 7 / 2 := by
  refine ⟨⟨by decide, by decide⟩, ?_, ?_⟩
  · have h := claim_C1_sma_value 3 (by decide) [[(1 : ℚ), 2, 3]]
      (by decide) (by simp) [10, 20] (by decide)
    exact h.trans (by norm_num [mean])
  · have h := claim_C1_sma_value 3 (by decide) [[(1 : ℚ), 2, 3], [4, 5, 6]]
      (by decide) (by simp) [] (by decide)
    exact h.trans (by norm_num [mean])

theorem sma_loop_sync_init (window : Int) (showI : Bool) (xs : List ℚ) :
    xs.foldl (sma_loop_step window showI) (sma_init window, 0, []) =
      (smaFeed (sma_init window) xs, (smaFeed (sma_init window) xs).current_window.count,
        if showI then smaEmits (sma_init window) xs else []) :=
  sma_loop_sync showI xs (sma_init window) []

/-- Claim C5: in SMA mode with intermediates shown and window size `W > 0`,
processing `n` samples prints exactly `⌊n / W⌋` lines. -/
theorem claim_C5_intermediate_line_count (W : ℕ) (hW : 0 < W) (xs : List ℚ) :
    (sma_main (W : Int) true xs).length = xs.length / W := by
  show (xs.foldl (sma_loop_step (W : Int) true) (sma_init (W : Int), 0, [])).2.2.length
    = xs.length / W
  rw [sma_loop_sync_init]
  simp only [if_pos]
  rw [sma_init_eq]
  exact smaEmits_length_aux xs.length W hW xs le_rfl cma_zero

/-- Witness for C5 at `W = 3`, five samples: one intermediate line. -/
theorem claim_C5_intermediate_line_count_witness :
    (0 : ℕ) < 3 ∧ (sma_main ((3 : ℕ) : Int) true [1, 2, 3, 4, 5]).length =
      ([1, 2, 3, 4, 5] : List ℚ).length / 3 :=
  ⟨by decide, claim_C5_intermediate_line_count 3 (by decide) [1, 2, 3, 4, 5]⟩

/-- Claim C9: in the SMA driver loop (window size > 0), the driver's separate
per-window counter always equals `current_window.count` of the averager state, the
averager state is the fold of the updates, and with intermediates shown the printed
lines are exactly the `sma` values at the updates that folded a window mean into
the across-windows averager (`smaEmits` emits precisely at the trigger condition). -/
theorem claim_C9_driver_counter_sync (W : Int) (hW : 0 < W) (showI : Bool) (xs : List ℚ) :
    (xs.foldl (sma_loop_step W showI) (sma_init W, 0, [])).2.1 =
      (xs.foldl (sma_loop_step W showI) (sma_init W, 0, [])).1.current_window.count ∧
    (xs.foldl (sma_loop_step W showI) (sma_init W, 0, [])).1 = smaFeed (sma_init W) xs ∧
    (xs.foldl (sma_loop_step W true) (sma_init W, 0, [])).2.2 = smaEmits (sma_init W) xs := by
  rw [sma_loop_sync_init W showI xs, sma_loop_sync_init W true xs]
  exact ⟨rfl, rfl, by simp⟩

/-- Witness for C9 at `W = 2`, samples `[1, 2, 3]`, intermediates on. -/
theorem claim_C9_driver_counter_sync_witness :
    (0 : Int) < 2 ∧
    (([1, 2, 3] : List ℚ).foldl (sma_loop_step 2 true) (sma_init 2, 0, [])).2.1 =
      (([1, 2, 3] : List ℚ).foldl (sma_loop_step 2 true) (sma_init 2, 0, [])).1.current_window.count ∧
    (([1, 2, 3] : List ℚ).foldl (sma_loop_step 2 true) (sma_init 2, 0, [])).1 =
      smaFeed (sma_init 2) [1, 2, 3] ∧
    (([1, 2, 3] : List ℚ).foldl (sma_loop_step 2 true) (sma_init 2, 0, [])).2.2 =
      smaEmits (sma_init 2) [1, 2, 3] :=
  ⟨by decide, claim_C9_driver_counter_sync 2 (by decide) true [1, 2, 3]⟩

/-- With a non-positive window, the count check after an update never fires, so the
whole sample list accumulates in `current_window`. -/
theorem smaFeed_nonpos (xs : List ℚ) : ∀ (s : simple_moving_average_t), s.window ≤ 0 →
    0 ≤ s.current_window.count →
    smaFeed s xs = { s with current_window := caFeed s.current_window xs } := by
  induction xs with
  | nil => intro s _ _; rfl
  | cons x t ih =>
      intro s hw hc
      rw [smaFeed_cons, sma_update_no_trigger s x (by omega)]
      rw [ih _ (by simpa using hw) (by simp [cumulative_average]; omega)]
      simp [caFeed_cons]

/-- Claim C10: with a zero or negative configured window size (accepted unvalidated
from `atol`), no window ever completes: the across-windows averager stays at its
reset state, after any nonempty update sequence the current window count differs
from the window size, every update returns 0 (`sma` of the state after any prefix
is 0), and the final-only SMA output is the single line 0. -/
theorem claim_C10_nonpositive_window (W : Int) (hW : W ≤ 0) (xs : List ℚ) :
    smaFeed (sma_init W) xs =
      { current_window := caOf xs, simple_average := cma_zero, window := W } ∧
    (xs ≠ [] → (smaFeed (sma_init W) xs).current_window.count ≠ W) ∧
    sma (smaFeed (sma_init W) xs) = 0 ∧
    sma_main W false xs = [0] := by
  have hfeed : smaFeed (sma_init W) xs =
      { current_window := caOf xs, simple_average := cma_zero, window := W } := by
    rw [sma_init_eq, smaFeed_nonpos xs _ hW (by simp [cma_zero])]
    rw [caFeed_zero]
  refine ⟨hfeed, ?_, ?_, ?_⟩
  · intro hne
    rw [hfeed]
    simp only [caOf]
    have hlp : 0 < xs.length := List.length_pos.mpr hne
    omega
  · rw [hfeed]
    rfl
  · show (xs.foldl (sma_loop_step W false) (sma_init W, 0, [])).2.2
        ++ [sma (xs.foldl (sma_loop_step W false) (sma_init W, 0, [])).1] = [0]
    rw [sma_loop_sync_init W false xs]
    rw [hfeed]
    simp [sma, cma, cma_zero]

/-- Witness for C10 at `W = 0` (what `atol` returns on non-numeric text), samples `[1, 2]`. -/
theorem claim_C10_nonpositive_window_witness :
    (0 : Int) ≤ 0 ∧
    smaFeed (sma_init 0) [1, 2] =
      { current_window := caOf [1, 2], simple_average := cma_zero, window := 0 } ∧
    (([1, 2] : List ℚ) ≠ [] ∧ (smaFeed (sma_init 0) [1, 2]).current_window.count ≠ 0) ∧
    sma (smaFeed (sma_init 0) [1, 2]) = 0 ∧
    sma_main 0 false [1, 2] = [0] := by
  have h := claim_C10_nonpositive_window 0 (by decide) [1, 2]
  exact ⟨by decide, h.1, ⟨by decide, h.2.1 (by decide)⟩, h.2.2.1, h.2.2.2⟩

theorem cma_fscanf_loop_bad (showI : Bool) (rest : List token) (fuel : ℕ) :
    ∀ (s : cumulative_average_t) (x : ℚ) (out : List ℚ),
    (cma_fscanf_loop fuel showI s x out (token.bad :: rest)).1 = none := by
  induction fuel with
  | zero => intro s x out; rfl
  | succ n ih => intro s x out; exact ih (cumulative_average s x) x _

theorem cma_fscanf_loop_bad_out (rest : List token) (fuel : ℕ) :
    ∀ (s : cumulative_average_t) (x : ℚ) (out : List ℚ),
    (cma_fscanf_loop fuel true s x out (token.bad :: rest)).2.length = out.length + fuel := by
  induction fuel with
  | zero => intro s x out; rfl
  | succ n ih =>
      intro s x out
      show (cma_fscanf_loop n true (cumulative_average s x) x
        (out ++ [cma (cumulative_average s x)]) (token.bad :: rest)).2.length = out.length + (n + 1)
      rw [ih]
      simp
      omega

/-- Counterexample to claim C3: in both output modes, on the stream `1 <malformed>`
the read loop never terminates (it does not stop "as if the stream had ended"),
whereas on the truncated stream `1` it terminates normally with the sample consumed
and, in final-only mode, nothing yet printed. -/
theorem claim_C3_counterexample :
    cma_fscanf_diverges false [token.num 1, token.bad] ∧
    cma_fscanf_diverges true [token.num 1, token.bad] ∧
    cma_fscanf_loop 2 false cma_zero 0 [] [token.num 1] =
      (some (cumulative_average cma_zero 1), []) := by
  refine ⟨?_, ?_, rfl⟩ <;>
    · intro fuel s x out
      cases fuel with
      | zero => rfl
      | succ n => exact cma_fscanf_loop_bad _ [] n (cumulative_average s 1) 1 _

/-- Claim C3 (amended): when the stream holds some parsed samples followed by a
malformed token, the read loop never terminates in either output mode: `fscanf`
returns 0 rather than `EOF` and the malformed token is never consumed, so every
further iteration re-feeds the previous sample value into the averager.  In
final-only mode the program therefore never reaches its output statement, while in
show-intermediates mode the loop keeps printing the stale running average without
bound: after `fuel` iterations exactly `fuel` lines have been printed. -/
theorem claim_C3_malformed_token_loops (pre : List ℚ) (rest : List token) :
    (∀ (showI : Bool) (fuel : ℕ) (s : cumulative_average_t) (x : ℚ) (out : List ℚ),
      (cma_fscanf_loop fuel showI s x out (pre.map token.num ++ token.bad :: rest)).1 = none) ∧
    (∀ (fuel : ℕ) (s : cumulative_average_t) (x : ℚ) (out : List ℚ),
      (cma_fscanf_loop fuel true s x out (pre.map token.num ++ token.bad :: rest)).2.length =
        out.length + fuel) := by
  induction pre with
  | nil =>
      exact ⟨fun showI fuel s x out => cma_fscanf_loop_bad showI rest fuel s x out,
        fun fuel s x out => cma_fscanf_loop_bad_out rest fuel s x out⟩
  | cons p t ih =>
      constructor
      · intro showI fuel s x out
        cases fuel with
        | zero => rfl
        | succ n => exact ih.1 showI n (cumulative_average s p) p _
      · intro fuel s x out
        cases fuel with
        | zero => rfl
        | succ n =>
            show (cma_fscanf_loop n true (cumulative_average s p) p
              (out ++ [cma (cumulative_average s p)])
              (t.map token.num ++ token.bad :: rest)).2.length = out.length + (n + 1)
            rw [ih.2]
            simp
            omega

/-- Witness for the amended C3 at the stream `1 2 <malformed>`: with fuel 100 the
loop has not terminated in either mode, and in show-intermediates mode it has
already printed 100 lines. -/
theorem claim_C3_malformed_token_loops_witness :
    (cma_fscanf_loop 100 false cma_zero 0 [] ([(1 : ℚ), 2].map token.num ++ [token.bad])).1 =
      none ∧
    (cma_fscanf_loop 100 true cma_zero 0 [] ([(1 : ℚ), 2].map token.num ++ [token.bad])).1 =
      none ∧
    (cma_fscanf_loop 100 true cma_zero 0 [] ([(1 : ℚ), 2].map token.num ++ [token.bad])).2.length =
      100 :=
  ⟨(claim_C3_malformed_token_loops [1, 2] []).1 false 100 cma_zero 0 [],
    (claim_C3_malformed_token_loops [1, 2] []).1 true 100 cma_zero 0 [],
    (claim_C3_malformed_token_loops [1, 2] []).2 100 cma_zero 0 []⟩
